import Mathlib

/-!
# Verification of the lyric-video timing/segmentation/caching engine

A shallow embedding, in Lean 4, of the core data transformations of
`src/app/main.py`:

* `build_cache_key` — cache-key derivation from audio hash, optional trim
  window and optional style signature (floats are modelled as rationals,
  the Python 3-decimal format as decimal rendering after
  round-half-to-even at three decimals);
* `validate_word_timings` — word-timing validation (sorting by
  `(start, end)` plus the fail-fast checks, `HTTPException`s modelled as
  `Except` errors);
* `build_chunks` / `chunk_from_words` — greedy chunk segmentation;
* the trim re-slicer loop of `update_output` (`resliceWords`) together with
  its `EmptyResult` guard (`update_slice`);
* `_build_safe_text_clip` — the font-size descent, with the external
  text-measurement collaborator (moviepy `TextClip`) abstracted as an
  oracle returning `none` where the library raises `ValueError`.

Theorems named `C1` … `C10` settle the frozen claims about these
functions.
-/

/-! ## Constants (from the module header of `src/app/main.py`) -/

def MAX_WORDS_PER_CHUNK : ℕ := 4

def MAX_GAP_BETWEEN_WORDS : ℚ := 3/10

def MIN_WORD_DURATION : ℚ := 15/1000

def MIN_FONT_SIZE : ℤ := 36

def DEFAULT_FONT_FAMILY : String := "DejaVu-Sans"

def FALLBACK_FONT_FAMILY : String := "DejaVu-Sans"

/-- The safe-area width in pixels: the integer part of 720 times 0.88,
which is 633 (see `safe_width_eq`). -/
def safe_width : ℕ := 633

/-- The safe-area height in pixels: the integer part of 1280 times 0.28,
which is 358 (see `safe_height_eq`). -/
def safe_height : ℕ := 358

/-! ## Cache-key derivation (`build_cache_key`, main.py lines 95–106) -/

/-- Round to the nearest integer, ties to the even integer: the rounding
mode of the Python `round` builtin and of its 3-decimal string format. -/
def roundHalfEven (x : ℚ) : ℤ :=
  let f : ℤ := ⌊x⌋
  let frac : ℚ := x - f
  if frac < 1/2 then f
  else if 1/2 < frac then f + 1
  else if f % 2 = 0 then f else f + 1

/-- Left-pad a number below 1000 to three digits. -/
def pad3 (n : ℕ) : String :=
  if n < 10 then "00" ++ toString n
  else if n < 100 then "0" ++ toString n
  else toString n

/-- Model of the Python 3-decimal fixed-point format: rounds half to even
at the third decimal and renders with exactly three decimals. -/
def fmt3 (x : ℚ) : String :=
  let n : ℤ := roundHalfEven (x * 1000)
  let sign : String := if n < 0 then "-" else ""
  sign ++ toString (n.natAbs / 1000) ++ "." ++ pad3 (n.natAbs % 1000)

/-- The base string of `build_cache_key`: the audio hash followed by the
literal tag full, or followed by the two trim bounds rendered via `fmt3`
when both bounds are present and `trim_end > trim_start`. -/
def trimComponent (audio_hash : String) (trim_start trim_end : Option ℚ) : String :=
  match trim_start, trim_end with
  | some ts, some te =>
      if ts < te then audio_hash ++ ":" ++ fmt3 ts ++ ":" ++ fmt3 te
      else audio_hash ++ ":full"
  | _, _ => audio_hash ++ ":full"

/-- Model of `build_cache_key` (main.py lines 95 to 106). Optional floats
become `Option ℚ`; the Python truthiness test on the style signature is
false for both `None` and the empty string. -/
def build_cache_key (audio_hash : String) (trim_start trim_end : Option ℚ)
    (style_signature : Option String) : String :=
  let base : String := trimComponent audio_hash trim_start trim_end
  match style_signature with
  | some sig => if sig.isEmpty then base else base ++ ":" ++ sig
  | none => base

/-! ## Data model (`Word`, `LyricChunk`) -/

structure Word where
  id : String
  text : String
  start : ℚ
  «end» : ℚ
deriving DecidableEq, Repr

structure LyricChunk where
  text : String
  start : ℚ
  «end» : ℚ
  words : List Word
deriving DecidableEq, Repr

/-! ## Chunk segmentation (`chunk_from_words`, `build_chunks`) -/

/-- The Python builtin min with a default, over a list of rationals. -/
def listMinD (l : List ℚ) (d : ℚ) : ℚ :=
  match l with
  | [] => d
  | x :: xs => xs.foldl min x

/-- The Python builtin max with a default, over a list of rationals. -/
def listMaxD (l : List ℚ) (d : ℚ) : ℚ :=
  match l with
  | [] => d
  | x :: xs => xs.foldl max x

/-- Model of `chunk_from_words` (main.py lines 313 to 319). -/
def chunk_from_words (words : List Word) : LyricChunk :=
  { text := String.intercalate " " (words.map Word.text)
    start := listMinD (words.map Word.start) 0
    «end» := listMaxD (words.map Word.«end») 0
    words := words }

/-- Sorting key of `build_chunks`: `key=lambda w: w.start`. -/
def startLE (a b : Word) : Prop := a.start ≤ b.start

instance : DecidableRel startLE := fun a b =>
  inferInstanceAs (Decidable (a.start ≤ b.start))

instance : IsTotal Word startLE :=
  ⟨fun a b => le_total a.start b.start⟩

instance : IsTrans Word startLE :=
  ⟨fun _ _ _ hab hbc => le_trans hab hbc⟩

/-- One iteration of the `for word in sorted_words` loop of `build_chunks`
(main.py lines 329–338), acting on the state `(chunks, current)`. -/
def chunkStep (acc : List LyricChunk × List Word) (word : Word) :
    List LyricChunk × List Word :=
  match acc with
  | (chunks, []) => (chunks, [word])
  | (chunks, current) =>
      if MAX_GAP_BETWEEN_WORDS < word.start - (current.getLastD word).«end»
          ∨ MAX_WORDS_PER_CHUNK ≤ current.length then
        (chunks ++ [chunk_from_words current], [word])
      else (chunks, current ++ [word])

/-- The whole loop of `build_chunks`, including the final flush of a
non-empty `current` run. -/
def chunkLoop : List Word → List LyricChunk × List Word → List LyricChunk
  | [], (chunks, current) =>
      if current.isEmpty then chunks else chunks ++ [chunk_from_words current]
  | w :: ws, acc => chunkLoop ws (chunkStep acc w)

/-- Model of `build_chunks` (main.py lines 322 to 343). The Python stable
builtin sort is modelled by `List.insertionSort` (stable for total
preorders). -/
def build_chunks (words : List Word) : List LyricChunk :=
  if words.isEmpty then []
  else chunkLoop (List.insertionSort startLE words) ([], [])

/-! ## Word validation (`validate_word_timings`, main.py lines 346–368) -/

/-- The five `HTTPException(400, ...)` branches of `validate_word_timings`,
in source order. `tooShort` carries the reported duration in milliseconds,
`int(round((end - start) * 1000))`. -/
inductive ValError where
  | negativeTiming
  | tooShort (text : String) (ms : ℤ)
  | mustEndAfterStart (text : String)
  | overlappingWords
  | exceedsDuration
deriving DecidableEq, Repr

/-- Sorting key of `validate_word_timings`: `key=lambda w: (w.start, w.end)`. -/
def wordKeyLE (a b : Word) : Prop :=
  a.start < b.start ∨ (a.start = b.start ∧ a.«end» ≤ b.«end»)

instance : DecidableRel wordKeyLE := fun a b =>
  inferInstanceAs (Decidable (a.start < b.start ∨ (a.start = b.start ∧ a.«end» ≤ b.«end»)))

instance : IsTotal Word wordKeyLE := by
  constructor
  intro a b
  rcases lt_trichotomy a.start b.start with h | h | h
  · exact Or.inl (Or.inl h)
  · rcases le_total a.«end» b.«end» with h' | h'
    · exact Or.inl (Or.inr ⟨h, h'⟩)
    · exact Or.inr (Or.inr ⟨h.symm, h'⟩)
  · exact Or.inr (Or.inl h)

instance : IsTrans Word wordKeyLE := by
  constructor
  rintro a b c (hab | ⟨hab, hab'⟩) (hbc | ⟨hbc, hbc'⟩)
  · exact Or.inl (hab.trans hbc)
  · exact Or.inl (hbc ▸ hab)
  · exact Or.inl (hab ▸ hbc)
  · exact Or.inr ⟨hab.trans hbc, hab'.trans hbc'⟩

/-- The `total_duration` bound: `word.end > total_duration + 0.001` when a
bound was supplied. -/
def exceedsBound (total_duration : Option ℚ) (e : ℚ) : Prop :=
  match total_duration with
  | some d => d + 1/1000 < e
  | none => False

instance (total_duration : Option ℚ) (e : ℚ) :
    Decidable (exceedsBound total_duration e) :=
  match total_duration with
  | some d => inferInstanceAs (Decidable (d + 1/1000 < e))
  | none => inferInstanceAs (Decidable False)

/-- The `for index, word in enumerate(ordered)` loop of
`validate_word_timings`, carrying `index` and `previous_end`. -/
def checkLoop (total_duration : Option ℚ) :
    List Word → ℕ → ℚ → Except ValError Unit
  | [], _, _ => .ok ()
  | w :: rest, index, previous_end =>
    if w.start < 0 ∨ w.«end» < 0 then .error .negativeTiming
    else if w.«end» - w.start < MIN_WORD_DURATION then
      .error (.tooShort w.text (roundHalfEven ((w.«end» - w.start) * 1000)))
    else if w.«end» ≤ w.start then .error (.mustEndAfterStart w.text)
    else if 0 < index ∧ w.start < previous_end then .error .overlappingWords
    else if exceedsBound total_duration w.«end» then .error .exceedsDuration
    else checkLoop total_duration rest (index + 1) w.«end»

/-- Model of `validate_word_timings` (main.py lines 346 to 368): sort by
`(start, end)`, run the checks, and return the sorted list on success. -/
def validate_word_timings (words : List Word) (total_duration : Option ℚ) :
    Except ValError (List Word) :=
  let ordered := List.insertionSort wordKeyLE words
  (checkLoop total_duration ordered 0 0).map (fun _ => ordered)

/-! ## Trim re-slicer (`update_output`, main.py lines 786–797) -/

/-- The body of the `for word in base_words` filter loop of
`update_output`: drop words wholly outside the trim window, clip the rest
to the window and shift by `-trim_start`, dropping collapsed spans. -/
def resliceWord (trim_start trim_end : ℚ) (w : Word) : Option Word :=
  if w.«end» ≤ trim_start ∨ w.start ≥ trim_end then none
  else
    let word_start := max w.start trim_start - trim_start
    let word_end := min w.«end» trim_end - trim_start
    if word_end ≤ word_start then none
    else some { id := w.id, text := w.text, start := word_start, «end» := word_end }

/-- The whole filter loop (main.py lines 786–794): `filtered_words`. -/
def resliceWords (trim_start trim_end : ℚ) (words : List Word) : List Word :=
  words.filterMap (resliceWord trim_start trim_end)

/-- Errors reachable from the re-slicing portion of `update_output`:
a `ValidationError` from `validate_word_timings`, or the `EmptyResult`
error `"Trim range removed all lyric words."` (main.py lines 796–797). -/
inductive UpdateError where
  | validation (e : ValError)
  | emptyResult
deriving DecidableEq, Repr

/-- The word-processing core of `update_output` (main.py lines 779–801):
validate the base words against the original duration, clamp the requested
trim window, re-slice, fail with `EmptyResult` when nothing survives,
re-validate the survivors against the window length, and re-chunk. -/
def update_slice (base : List Word) (original_duration ts0 te0 : ℚ) :
    Except UpdateError (List Word × List LyricChunk) :=
  match validate_word_timings base (some original_duration) with
  | .error e => .error (.validation e)
  | .ok vbase =>
    let trim_start := max 0 (min ts0 original_duration)
    let trim_end := max (trim_start + 1/1000) (min te0 original_duration)
    let filtered := resliceWords trim_start trim_end vbase
    if filtered.isEmpty then .error .emptyResult
    else
      match validate_word_timings filtered (some (trim_end - trim_start)) with
      | .error e => .error (.validation e)
      | .ok vfiltered => .ok (vfiltered, build_chunks vfiltered)

/-! ## Layout fitter (`_build_safe_text_clip`, main.py lines 402–468)

The moviepy `TextClip` constructor is the external measurement
collaborator: modelled as an oracle from a font candidate (`none` = no
`font` argument, the renderer default) and a font size to `none` when the
constructor raises `ValueError`, or the rendered clip dimensions. -/

def Measure : Type := Option String → ℤ → Option (ℕ × ℕ)

/-- The `font_candidates` priority list (main.py lines 412–425): the
custom font file first, then family-weight spellings, then the bare
family, then the no-font fallback. `if font_family:` and
`if font_weight:` are Python truthiness tests. -/
def fontCandidates (font_path : Option String) (font_family : String)
    (font_weight : ℤ) : List (Option String) :=
  ((match font_path with
    | some p => [some p]
    | none => [])
    ++ (if font_family.isEmpty then []
        else
          (if font_weight = 0 then []
           else
             [some (font_family ++ "-" ++ toString font_weight),
              some (font_family ++ " " ++ toString font_weight),
              some (font_family ++ ":" ++ toString font_weight)])
          ++ [some font_family]))
  ++ [none]

/-- The inner `for candidate in font_candidates` loop: first candidate the
measurer accepts at this size, with its measured box. -/
def tryCandidates (m : Measure) (cands : List (Option String)) (size : ℤ) :
    Option (Option String × ℕ × ℕ) :=
  match cands with
  | [] => none
  | c :: rest =>
    match m c size with
    | some dims => some (c, dims)
    | none => tryCandidates m rest size

/-- The outer `while current_size >= MIN_FONT_SIZE` loop: returns on the
first candidate whose box fits both axes, otherwise remembers the last
measured candidate (`last_clip`, `last_font_used`, `picked_size`) and
steps the size down by 2.  `fuel` is an upper bound on the number of
iterations; the loop itself stops as soon as `size < MIN_FONT_SIZE`. -/
def fitLoop (m : Measure) (cands : List (Option String)) :
    ℕ → ℤ → Option ((ℕ × ℕ) × Option String × ℤ) →
    Option ((ℕ × ℕ) × Option String × ℤ)
  | 0, _, last => last
  | fuel + 1, size, last =>
    if size < MIN_FONT_SIZE then last
    else
      match tryCandidates m cands size with
      | none => fitLoop m cands fuel (size - 2) last
      | some (c, dims) =>
        if dims.1 ≤ safe_width ∧ dims.2 ≤ safe_height then some (dims, c, size)
        else fitLoop m cands fuel (size - 2) (some (dims, c, size))

/-- The Python or-idiom applied to an optional font string: `None` and the
empty string both fall back to `FALLBACK_FONT_FAMILY`. -/
def orFallback (c : Option String) : String :=
  match c with
  | some s => if s.isEmpty then FALLBACK_FONT_FAMILY else s
  | none => FALLBACK_FONT_FAMILY

/-- Model of `_build_safe_text_clip` (main.py lines 402 to 468), abstracted over the
measurer `m` and returning the measured box, the font name reported to the
caller, and the resolved size.  `none` models the uncaught `ValueError`
when even the final no-font `TextClip` at `MIN_FONT_SIZE` fails. -/
def build_safe_text_clip (m : Measure) (font_path : Option String)
    (font_family : String) (font_size font_weight : ℤ) :
    Option ((ℕ × ℕ) × String × ℤ) :=
  let cands := fontCandidates font_path font_family font_weight
  match fitLoop m cands (font_size - 34).toNat font_size none with
  | some (dims, c, size) => some (dims, orFallback c, size)
  | none =>
    match m none MIN_FONT_SIZE with
    | some dims =>
        some (dims,
          if font_family.isEmpty then FALLBACK_FONT_FAMILY else font_family,
          MIN_FONT_SIZE)
    | none => none

/-! ## Helper lemmas -/

lemma isEmpty_eq_false_of_ne (s : String) (h : s ≠ "") : s.isEmpty = false := by
  cases hs : s.isEmpty
  · rfl
  · exact absurd ((String.isEmpty_iff s).mp hs) h

lemma fmt3_congr {x y : ℚ} (h : roundHalfEven (x * 1000) = roundHalfEven (y * 1000)) :
    fmt3 x = fmt3 y := by
  simp only [fmt3, h]

/-! ## C1 -/

/-- C1: `build_cache_key` is total (a Lean `def` into `String`) and
deterministic (same inputs, same key); when the trim window is absent or
degenerate (`trim_start` is `none`, `trim_end` is `none`, or
`trim_end ≤ trim_start`) the key coincides with the no-trim key, whose
trim component is the literal tag `"full"`; otherwise the key encodes both
endpoints at 3-decimal precision, so two windows whose endpoints round
(half-to-even) to the same thousandths yield the same key. -/
theorem cache_key_total_deterministic (a : String) (ts te : Option ℚ)
    (sig : Option String) :
    (build_cache_key a ts te sig = build_cache_key a ts te sig)
  ∧ ((ts = none ∨ te = none ∨ ∃ s e, ts = some s ∧ te = some e ∧ e ≤ s) →
      build_cache_key a ts te sig = build_cache_key a none none sig
        ∧ ∃ tail, build_cache_key a none none sig = a ++ ":full" ++ tail)
  ∧ (∀ s e s' e' : ℚ, s < e → s' < e' →
      roundHalfEven (s * 1000) = roundHalfEven (s' * 1000) →
      roundHalfEven (e * 1000) = roundHalfEven (e' * 1000) →
      build_cache_key a (some s) (some e) sig
        = build_cache_key a (some s') (some e') sig) := by
  refine ⟨rfl, ?_, ?_⟩
  · intro hdeg
    have hbase : trimComponent a ts te = a ++ ":full" := by
      rcases hdeg with h | h | ⟨s, e, hs, he, hle⟩
      · subst h; rfl
      · subst h; cases ts <;> rfl
      · subst hs; subst he
        simp [trimComponent, not_lt.mpr hle]
    have hbase' : trimComponent a none none = a ++ ":full" := rfl
    constructor
    · simp only [build_cache_key, hbase, hbase']
    · cases sig with
      | none => exact ⟨"", by simp [build_cache_key, hbase']⟩
      | some s =>
        by_cases hs : s.isEmpty
        · exact ⟨"", by simp [build_cache_key, hbase', hs]⟩
        · refine ⟨":" ++ s, ?_⟩
          simp only [build_cache_key, hbase', hs, Bool.false_eq_true, if_false]
          rw [String.append_assoc]
  · intro s e s' e' hse hse' hrs hre
    have hbase : trimComponent a (some s) (some e) = trimComponent a (some s') (some e') := by
      simp only [trimComponent]
      rw [if_pos hse, if_pos hse', fmt3_congr hrs, fmt3_congr hre]
    simp only [build_cache_key, hbase]

/-- Witness for C1: a degenerate window (3, 2) collapses to the no-trim
key, and the windows (1.0001, 2.0002) and (1.0, 2.0) collide. -/
theorem cache_key_total_deterministic_w :
    build_cache_key "hashA" (some 3) (some 2) none
        = build_cache_key "hashA" none none none
  ∧ build_cache_key "hashA" (some (10001/10000)) (some (20002/10000)) none
      = build_cache_key "hashA" (some 1) (some 2) none := by
  constructor
  · exact ((cache_key_total_deterministic "hashA" (some 3) (some 2) none).2.1
      (Or.inr (Or.inr ⟨3, 2, rfl, rfl, by norm_num⟩))).1
  · exact (cache_key_total_deterministic "hashA" none none none).2.2
      (10001/10000) (20002/10000) 1 2 (by norm_num) (by norm_num)
      (by norm_num [roundHalfEven]) (by norm_num [roundHalfEven])

/-! ## C7 -/

/-- C7 counterexample: with a present-but-empty style signature the key is
exactly the no-style key — the Python truthiness test on the signature is
false for the empty string — so the clause that distinguishability also
holds for a present-but-empty style signature fails. -/
theorem style_signature_empty_ambiguous :
    build_cache_key "hashA" (some 1) (some 2) (some "")
      = build_cache_key "hashA" (some 1) (some 2) none := rfl

/-- C7 (amended): for every audio hash and trim window, a key derived with
a NONEMPTY style signature is never equal to the key derived with no style
signature; the present-but-empty signature instead collapses to the
no-style key. -/
theorem style_signature_distinguishable (a : String) (ts te : Option ℚ)
    (sig : String) (h : sig ≠ "") :
    build_cache_key a ts te (some sig) ≠ build_cache_key a ts te none := by
  unfold build_cache_key
  simp only [isEmpty_eq_false_of_ne sig h, Bool.false_eq_true, if_false]
  intro heq
  have hlen := congrArg String.length heq
  simp only [String.length_append] at hlen
  have hsig : sig.length ≠ 0 := by
    intro h0
    exact h (by
      have : sig.data.length = 0 := h0
      cases sig with
      | mk data => cases data with
        | nil => rfl
        | cons c cs => simp at this)
  omega

/-- Witness for C7: the example given in the spec,
`derive(hashA, (1.0,2.0), "sigX") ≠ derive(hashA, (1.0,2.0), None)`. -/
theorem style_signature_distinguishable_w :
    build_cache_key "hashA" (some 1) (some 2) (some "sigX")
      ≠ build_cache_key "hashA" (some 1) (some 2) none :=
  style_signature_distinguishable "hashA" (some 1) (some 2) "sigX" (by decide)

/-! ## C2 -/

/-- C2: the trim re-slicer drops a word entirely outside the window, clips
every other word to `max(start, win.start) - win.start`,
`min(end, win.end) - win.start`, drops collapsed spans, and on the
example window (2.0, 5.0) from the spec over `[{1.0,1.5},{2.5,3.0},{4.5,6.0}]` returns
exactly `[{0.5,1.0},{2.5,3.0}]`. -/
theorem reslice_drop_clip (ts te : ℚ) (h : ts < te) :
    (∀ w : Word, w.«end» ≤ ts ∨ w.start ≥ te → resliceWord ts te w = none)
  ∧ (∀ w : Word, min w.«end» te - ts ≤ max w.start ts - ts →
      resliceWord ts te w = none)
  ∧ (∀ w : Word, ts < w.«end» → w.start < te →
      max w.start ts - ts < min w.«end» te - ts →
      resliceWord ts te w
        = some ⟨w.id, w.text, max w.start ts - ts, min w.«end» te - ts⟩)
  ∧ resliceWords 2 5 [⟨"w1","one",1,3/2⟩, ⟨"w2","two",5/2,3⟩, ⟨"w3","three",9/2,6⟩]
      = [⟨"w2","two",1/2,1⟩, ⟨"w3","three",5/2,3⟩] := by
  refine ⟨?_, ?_, ?_, ?_⟩
  · intro w hw
    simp [resliceWord, hw]
  · intro w hcol
    simp only [resliceWord]
    split_ifs with h1 <;> rfl
  · intro w h1 h2 h3
    simp only [resliceWord]
    rw [if_neg (by push_neg; exact ⟨h1, h2⟩), if_neg (not_le.mpr h3)]
  · norm_num [resliceWords, resliceWord, List.filterMap_cons, max_def, min_def]

/-- Witness for C2: the boundary example of the spec, via the theorem at
the window (2, 5). -/
theorem reslice_drop_clip_w :
    resliceWords 2 5 [⟨"w1","one",1,3/2⟩, ⟨"w2","two",5/2,3⟩, ⟨"w3","three",9/2,6⟩]
      = [⟨"w2","two",1/2,1⟩, ⟨"w3","three",5/2,3⟩] :=
  (reslice_drop_clip 2 5 (by norm_num)).2.2.2

/-! ## Validation helper lemmas -/

lemma validate_ok_iff (words out : List Word) (dur : Option ℚ) :
    validate_word_timings words dur = .ok out ↔
      out = List.insertionSort wordKeyLE words
        ∧ checkLoop dur (List.insertionSort wordKeyLE words) 0 0 = .ok () := by
  unfold validate_word_timings
  cases hc : checkLoop dur (List.insertionSort wordKeyLE words) 0 0 with
  | error e => simp [Except.map, hc]
  | ok u => cases u; simp [Except.map, hc, eq_comm]

lemma checkLoop_ok_mem (dur : Option ℚ) :
    ∀ (l : List Word) (idx : ℕ) (pe : ℚ), checkLoop dur l idx pe = .ok () →
      ∀ w ∈ l, 0 ≤ w.start ∧ 0 ≤ w.«end»
        ∧ MIN_WORD_DURATION ≤ w.«end» - w.start
        ∧ ¬ exceedsBound dur w.«end» := by
  intro l
  induction l with
  | nil => simp
  | cons w rest ih =>
    intro idx pe h
    simp only [checkLoop] at h
    split_ifs at h with h1 h2 h3 h4 h5
    intro w' hw'
    rcases List.mem_cons.mp hw' with rfl | hmem
    · push_neg at h1
      exact ⟨h1.1, h1.2, not_lt.mp h2, h5⟩
    · exact ih _ _ h w' hmem

lemma filterMap_id_of_mem {α : Type} (f : α → Option α) :
    ∀ l : List α, (∀ a ∈ l, f a = some a) → l.filterMap f = l := by
  intro l
  induction l with
  | nil => intro _; rfl
  | cons a rest ih =>
    intro h
    rw [List.filterMap_cons, h a (by simp)]
    rw [ih (fun b hb => h b (by simp [hb]))]

/-! ## C8 -/

/-- C8 counterexample: the validator tolerates a word ending up to 1 ms
past `total_duration` (`word.end > total_duration + 0.001` is the check),
so the word `{start 0, end 1.0005}` passes validation against duration 1,
yet the identity window (0, 1) clips its end to 1 — re-slicing is NOT the
identity on every validated sequence. -/
theorem reslice_identity_window_cex :
    validate_word_timings [⟨"0-0","hi",0,2001/2000⟩] (some 1)
        = .ok [⟨"0-0","hi",0,2001/2000⟩]
  ∧ resliceWords 0 1 [⟨"0-0","hi",0,2001/2000⟩] ≠ [⟨"0-0","hi",0,2001/2000⟩] := by
  constructor
  · norm_num [validate_word_timings, checkLoop, List.insertionSort,
      List.orderedInsert, MIN_WORD_DURATION, exceedsBound, Except.map]
  · norm_num [resliceWords, resliceWord, List.filterMap_cons, max_def, min_def]

/-- C8 (amended): for every word sequence passing validation against
`total_duration = d` in which every word also ends at or before `d` (the
validator alone allows a 1 ms overshoot), the re-slicer with the identity
window (0, d) returns the sequence unchanged. -/
theorem reslice_identity_window (words out : List Word) (d : ℚ)
    (h : validate_word_timings words (some d) = .ok out)
    (hend : ∀ w ∈ out, w.«end» ≤ d) :
    resliceWords 0 d out = out := by
  obtain ⟨hout, hchk⟩ := (validate_ok_iff words out (some d)).mp h
  have hfacts := checkLoop_ok_mem (some d) _ 0 0 hchk
  rw [← hout] at hfacts
  apply filterMap_id_of_mem
  intro w hw
  obtain ⟨hs0, _, hdur, _⟩ := hfacts w hw
  have hmin : (0:ℚ) < MIN_WORD_DURATION := by norm_num [MIN_WORD_DURATION]
  have hse : w.start < w.«end» := by linarith
  have hwe : w.«end» ≤ d := hend w hw
  simp only [resliceWord]
  have hc1 : ¬(w.«end» ≤ 0 ∨ w.start ≥ d) := by
    push_neg
    exact ⟨by linarith, lt_of_lt_of_le hse hwe⟩
  rw [if_neg hc1, max_eq_left hs0, min_eq_left hwe, sub_zero, sub_zero,
    if_neg (not_le.mpr hse)]

/-- Witness for C8: a word ending exactly at the duration is returned
unchanged by the identity window. -/
theorem reslice_identity_window_w :
    resliceWords 0 1 [⟨"0-0","hi",0,1⟩] = [⟨"0-0","hi",0,1⟩] :=
  reslice_identity_window [⟨"0-0","hi",0,1⟩] [⟨"0-0","hi",0,1⟩] 1
    (by norm_num [validate_word_timings, checkLoop, List.insertionSort,
      List.orderedInsert, MIN_WORD_DURATION, exceedsBound, Except.map])
    (by intro w hw; rcases List.mem_singleton.mp hw with rfl; norm_num)

/-! ## C6 -/

/-- C6: the word-update pipeline fails with `EmptyResult` if and only if
zero words survive the drop-and-clip pass over the validated base words
for the (clamped) trim window; whenever at least one word survives, the
result is never `EmptyResult` (it is a success or a `ValidationError`). -/
theorem update_empty_result_iff (base : List Word) (d ts0 te0 : ℚ)
    (vbase : List Word)
    (hv : validate_word_timings base (some d) = .ok vbase) :
    update_slice base d ts0 te0 = .error .emptyResult
      ↔ resliceWords (max 0 (min ts0 d))
          (max (max 0 (min ts0 d) + 1/1000) (min te0 d)) vbase = [] := by
  unfold update_slice
  simp only [hv]
  by_cases hF : (resliceWords (max 0 (min ts0 d))
      (max (max 0 (min ts0 d) + 1/1000) (min te0 d)) vbase).isEmpty = true
  · rw [if_pos hF]
    exact ⟨fun _ => List.isEmpty_iff.mp hF, fun _ => rfl⟩
  · rw [if_neg hF]
    constructor
    · intro hcontra
      split at hcontra
      · exact absurd hcontra (by simp)
      · exact absurd hcontra (by simp)
    · intro hnil
      exact absurd (List.isEmpty_iff.mpr hnil) hF

/-- Witness for C6: a window clamped to (1, 1.001) drops the single word
`{0, 1}` entirely, and the pipeline reports `EmptyResult`. -/
theorem update_empty_result_iff_w :
    update_slice [⟨"0-0","hi",0,1⟩] 1 5 6 = .error .emptyResult := by
  apply (update_empty_result_iff [⟨"0-0","hi",0,1⟩] 1 5 6 [⟨"0-0","hi",0,1⟩]
    (by norm_num [validate_word_timings, checkLoop, List.insertionSort,
      List.orderedInsert, MIN_WORD_DURATION, exceedsBound, Except.map])).mpr
  norm_num [resliceWords, resliceWord, List.filterMap_cons, max_def, min_def]

/-! ## C10 -/

lemma checkLoop_ne_mustEnd (dur : Option ℚ) :
    ∀ (l : List Word) (idx : ℕ) (pe : ℚ) (t : String),
      checkLoop dur l idx pe ≠ .error (.mustEndAfterStart t) := by
  intro l
  induction l with
  | nil => intro idx pe t h; simp [checkLoop] at h
  | cons w rest ih =>
    intro idx pe t h
    simp only [checkLoop] at h
    split_ifs at h with h1 h2 h3 h4 h5
    · exact absurd h (by simp)
    · exact absurd h (by simp)
    · have : MIN_WORD_DURATION ≤ w.«end» - w.start := not_lt.mp h2
      have hmin : (0:ℚ) < MIN_WORD_DURATION := by norm_num [MIN_WORD_DURATION]
      linarith [h3]
    · exact absurd h (by simp)
    · exact absurd h (by simp)
    · exact ih _ _ t h

/-- C10: the must-end-after-it-starts error branch of
`validate_word_timings` is unreachable — any word with `end ≤ start` has
duration `≤ 0 < MIN_WORD_DURATION` and is rejected by the preceding
minimum-duration check, so no call ever returns that error. -/
theorem must_end_after_start_unreachable (words : List Word)
    (dur : Option ℚ) (t : String) :
    validate_word_timings words dur ≠ .error (.mustEndAfterStart t) := by
  unfold validate_word_timings
  cases hc : checkLoop dur (List.insertionSort wordKeyLE words) 0 0 with
  | error e =>
    simp only [Except.map, hc]
    intro h
    have he : e = .mustEndAfterStart t := by simpa using h
    exact checkLoop_ne_mustEnd dur _ 0 0 t (he ▸ hc)
  | ok u => simp [Except.map, hc]

/-- Witness for C10 at a concrete input. -/
theorem must_end_after_start_unreachable_w :
    validate_word_timings [⟨"0-0","hi",1,1⟩] none
      ≠ .error (.mustEndAfterStart "hi") :=
  must_end_after_start_unreachable [⟨"0-0","hi",1,1⟩] none "hi"

lemma safe_width_eq : (safe_width : ℤ) = ⌊(720 : ℚ) * (88/100)⌋ := by
  norm_num [safe_width]

lemma safe_height_eq : (safe_height : ℤ) = ⌊(1280 : ℚ) * (28/100)⌋ := by
  norm_num [safe_height]

/-! ## C3 -/

/-- C3: whenever `validate_word_timings` succeeds, its output is a
permutation of the input (no word dropped, added, or altered), sorted by
`(start, end)`, and re-validating the output with the same
`total_duration` succeeds and returns it unchanged. -/
theorem validate_sorted_idempotent (words out : List Word) (dur : Option ℚ)
    (h : validate_word_timings words dur = .ok out) :
    out.Perm words
  ∧ List.Sorted wordKeyLE out
  ∧ validate_word_timings out dur = .ok out := by
  obtain ⟨hout, hchk⟩ := (validate_ok_iff words out dur).mp h
  subst hout
  refine ⟨List.perm_insertionSort wordKeyLE words,
    List.sorted_insertionSort wordKeyLE words, ?_⟩
  rw [validate_ok_iff]
  have hself : List.insertionSort wordKeyLE (List.insertionSort wordKeyLE words)
      = List.insertionSort wordKeyLE words :=
    (List.sorted_insertionSort wordKeyLE words).insertionSort_eq
  exact ⟨hself.symm, by rw [hself]; exact hchk⟩

/-- Witness for C3 at a concrete out-of-order input. -/
theorem validate_sorted_idempotent_w :
    validate_word_timings [⟨"1","b",2,3⟩, ⟨"0","a",0,1⟩] (some 3)
        = .ok [⟨"0","a",0,1⟩, ⟨"1","b",2,3⟩]
  ∧ ([⟨"0","a",0,1⟩, ⟨"1","b",2,3⟩] : List Word).Perm [⟨"1","b",2,3⟩, ⟨"0","a",0,1⟩]
  ∧ validate_word_timings [⟨"0","a",0,1⟩, ⟨"1","b",2,3⟩] (some 3)
      = .ok [⟨"0","a",0,1⟩, ⟨"1","b",2,3⟩] := by
  have hv : validate_word_timings [⟨"1","b",2,3⟩, ⟨"0","a",0,1⟩] (some 3)
      = .ok [⟨"0","a",0,1⟩, ⟨"1","b",2,3⟩] := by
    norm_num [validate_word_timings, checkLoop, List.insertionSort,
      List.orderedInsert, wordKeyLE, MIN_WORD_DURATION, exceedsBound, Except.map]
  have hthm := validate_sorted_idempotent _ _ _ hv
  exact ⟨hv, hthm.1, hthm.2.2⟩

/-! ## C4 -/

/-- C4: in the segmentation scan, a word at gap exactly
`MAX_GAP_BETWEEN_WORDS` from the last word end of the current run extends the
run (the test is `gap > threshold`, not `>=`) as long as the run is below
`MAX_WORDS_PER_CHUNK`; a strictly larger gap, or a run already at the
word cap, starts a new chunk; and on the example of the spec, ends at 1.0 with
next start 1.3 share a chunk while next start 1.301 opens a second one. -/
theorem chunk_gap_tiebreak (chunks : List LyricChunk) (current : List Word)
    (w : Word) (hne : current ≠ []) :
    (w.start - (current.getLastD w).«end» ≤ MAX_GAP_BETWEEN_WORDS →
        current.length < MAX_WORDS_PER_CHUNK →
        chunkStep (chunks, current) w = (chunks, current ++ [w]))
  ∧ (MAX_GAP_BETWEEN_WORDS < w.start - (current.getLastD w).«end» →
        chunkStep (chunks, current) w = (chunks ++ [chunk_from_words current], [w]))
  ∧ (MAX_WORDS_PER_CHUNK ≤ current.length →
        chunkStep (chunks, current) w = (chunks ++ [chunk_from_words current], [w]))
  ∧ (build_chunks [⟨"a","hey",1/2,1⟩, ⟨"b","now",13/10,3/2⟩]).length = 1
  ∧ (build_chunks [⟨"a","hey",1/2,1⟩, ⟨"b","now",1301/1000,3/2⟩]).length = 2 := by
  obtain ⟨c, cs, rfl⟩ : ∃ c cs, current = c :: cs := by
    cases current with
    | nil => exact absurd rfl hne
    | cons c cs => exact ⟨c, cs, rfl⟩
  refine ⟨?_, ?_, ?_, ?_, ?_⟩
  · intro hgap hlen
    simp only [chunkStep]
    rw [if_neg]
    push_neg
    exact ⟨hgap, hlen⟩
  · intro hgap
    simp only [chunkStep]
    rw [if_pos (Or.inl hgap)]
  · intro hlen
    simp only [chunkStep]
    rw [if_pos (Or.inr hlen)]
  · have hstep2 : chunkStep ([], [⟨"a","hey",1/2,1⟩]) ⟨"b","now",13/10,3/2⟩
        = ([], [⟨"a","hey",1/2,1⟩, ⟨"b","now",13/10,3/2⟩]) := by
      norm_num [chunkStep, MAX_GAP_BETWEEN_WORDS, MAX_WORDS_PER_CHUNK]
    have hsort : List.insertionSort startLE [⟨"a","hey",1/2,1⟩, ⟨"b","now",13/10,3/2⟩]
        = [⟨"a","hey",1/2,1⟩, ⟨"b","now",13/10,3/2⟩] := by
      apply List.Sorted.insertionSort_eq
      simp [List.sorted_cons, startLE]
      norm_num
    rw [build_chunks, if_neg (by simp), hsort]
    rw [show chunkLoop [⟨"a","hey",1/2,1⟩, ⟨"b","now",13/10,3/2⟩] ([], [])
        = chunkLoop [] (chunkStep ([], [⟨"a","hey",1/2,1⟩]) ⟨"b","now",13/10,3/2⟩) from rfl]
    rw [hstep2]
    rfl
  · have hstep2 : chunkStep ([], [⟨"a","hey",1/2,1⟩]) ⟨"b","now",1301/1000,3/2⟩
        = ([chunk_from_words [⟨"a","hey",1/2,1⟩]], [⟨"b","now",1301/1000,3/2⟩]) := by
      norm_num [chunkStep, MAX_GAP_BETWEEN_WORDS, MAX_WORDS_PER_CHUNK]
    have hsort : List.insertionSort startLE [⟨"a","hey",1/2,1⟩, ⟨"b","now",1301/1000,3/2⟩]
        = [⟨"a","hey",1/2,1⟩, ⟨"b","now",1301/1000,3/2⟩] := by
      apply List.Sorted.insertionSort_eq
      simp [List.sorted_cons, startLE]
      norm_num
    rw [build_chunks, if_neg (by simp), hsort]
    rw [show chunkLoop [⟨"a","hey",1/2,1⟩, ⟨"b","now",1301/1000,3/2⟩] ([], [])
        = chunkLoop [] (chunkStep ([], [⟨"a","hey",1/2,1⟩]) ⟨"b","now",1301/1000,3/2⟩) from rfl]
    rw [hstep2]
    rfl

/-- Witness for C4: gap exactly 0.3 with a one-word run extends the run. -/
theorem chunk_gap_tiebreak_w :
    chunkStep ([], [⟨"a","hey",1/2,1⟩]) ⟨"b","now",13/10,3/2⟩
        = ([], [⟨"a","hey",1/2,1⟩, ⟨"b","now",13/10,3/2⟩])
  ∧ (build_chunks [⟨"a","hey",1/2,1⟩, ⟨"b","now",1301/1000,3/2⟩]).length = 2 := by
  have h := chunk_gap_tiebreak [] [⟨"a","hey",1/2,1⟩] ⟨"b","now",13/10,3/2⟩ (by simp)
  exact ⟨h.1 (by norm_num [List.getLastD, MAX_GAP_BETWEEN_WORDS])
           (by norm_num [MAX_WORDS_PER_CHUNK]),
         h.2.2.2.2⟩

/-! ## C5 -/

lemma foldl_min_le : ∀ (l : List ℚ) (a x : ℚ), x ∈ a :: l → l.foldl min a ≤ x := by
  intro l
  induction l with
  | nil =>
    intro a x hx
    rcases List.mem_singleton.mp hx with rfl
    exact le_refl _
  | cons b bs ih =>
    intro a x hx
    rw [List.foldl_cons]
    rcases List.mem_cons.mp hx with heq | hx'
    · rw [heq]
      exact le_trans (ih (min a b) (min a b) (by simp)) (min_le_left a b)
    · rcases List.mem_cons.mp hx' with heq | hx''
      · rw [heq]
        exact le_trans (ih (min a b) (min a b) (by simp)) (min_le_right a b)
      · exact ih (min a b) x (by simp [hx''])

lemma foldl_min_mem : ∀ (l : List ℚ) (a : ℚ), l.foldl min a ∈ a :: l := by
  intro l
  induction l with
  | nil => intro a; simp
  | cons b bs ih =>
    intro a
    rw [List.foldl_cons]
    rcases List.mem_cons.mp (ih (min a b)) with heq | hmem
    · rcases min_choice a b with hm | hm
      · rw [heq, hm]; simp
      · rw [heq, hm]; simp
    · exact List.mem_cons.mpr (Or.inr (List.mem_cons.mpr (Or.inr hmem)))

lemma foldl_max_le : ∀ (l : List ℚ) (a x : ℚ), x ∈ a :: l → x ≤ l.foldl max a := by
  intro l
  induction l with
  | nil =>
    intro a x hx
    rcases List.mem_singleton.mp hx with rfl
    exact le_refl _
  | cons b bs ih =>
    intro a x hx
    rw [List.foldl_cons]
    rcases List.mem_cons.mp hx with heq | hx'
    · rw [heq]
      exact le_trans (le_max_left a b) (ih (max a b) (max a b) (by simp))
    · rcases List.mem_cons.mp hx' with heq | hx''
      · rw [heq]
        exact le_trans (le_max_right a b) (ih (max a b) (max a b) (by simp))
      · exact ih (max a b) x (by simp [hx''])

lemma foldl_max_mem : ∀ (l : List ℚ) (a : ℚ), l.foldl max a ∈ a :: l := by
  intro l
  induction l with
  | nil => intro a; simp
  | cons b bs ih =>
    intro a
    rw [List.foldl_cons]
    rcases List.mem_cons.mp (ih (max a b)) with heq | hmem
    · rcases max_choice a b with hm | hm
      · rw [heq, hm]; simp
      · rw [heq, hm]; simp
    · exact List.mem_cons.mpr (Or.inr (List.mem_cons.mpr (Or.inr hmem)))

lemma chunk_from_words_spec (l : List Word) (hl : l ≠ []) :
    (chunk_from_words l).words = l
  ∧ (chunk_from_words l).text = String.intercalate " " (l.map Word.text)
  ∧ (∀ w ∈ l, (chunk_from_words l).start ≤ w.start
        ∧ w.«end» ≤ (chunk_from_words l).«end»)
  ∧ (∃ w ∈ l, w.start = (chunk_from_words l).start)
  ∧ (∃ w ∈ l, w.«end» = (chunk_from_words l).«end») := by
  obtain ⟨a, as, rfl⟩ := List.exists_cons_of_ne_nil hl
  refine ⟨rfl, rfl, ?_, ?_, ?_⟩
  · intro w hw
    constructor
    · have : w.start ∈ a.start :: as.map Word.start := by
        rcases List.mem_cons.mp hw with rfl | hmem
        · simp
        · simp [List.mem_map]
          right; exact ⟨w, hmem, rfl⟩
      exact foldl_min_le _ _ _ this
    · have : w.«end» ∈ a.«end» :: as.map Word.«end» := by
        rcases List.mem_cons.mp hw with rfl | hmem
        · simp
        · simp [List.mem_map]
          right; exact ⟨w, hmem, rfl⟩
      exact foldl_max_le _ _ _ this
  · have hmem := foldl_min_mem (as.map Word.start) a.start
    rcases List.mem_cons.mp hmem with heq | hmem'
    · exact ⟨a, by simp, heq.symm⟩
    · obtain ⟨w, hw, hws⟩ := List.mem_map.mp hmem'
      exact ⟨w, by simp [hw], hws⟩
  · have hmem := foldl_max_mem (as.map Word.«end») a.«end»
    rcases List.mem_cons.mp hmem with heq | hmem'
    · exact ⟨a, by simp, heq.symm⟩
    · obtain ⟨w, hw, hws⟩ := List.mem_map.mp hmem'
      exact ⟨w, by simp [hw], hws⟩

lemma chunkLoop_join : ∀ (ws : List Word) (chunks : List LyricChunk) (current : List Word),
    ((chunkLoop ws (chunks, current)).map LyricChunk.words).flatten
      = ((chunks.map LyricChunk.words).flatten ++ current) ++ ws := by
  intro ws
  induction ws with
  | nil =>
    intro chunks current
    simp only [chunkLoop]
    by_cases hc : current.isEmpty = true
    · rw [if_pos hc, List.isEmpty_iff.mp hc]
      simp
    · rw [if_neg hc]
      simp [chunk_from_words]
  | cons w ws ih =>
    intro chunks current
    simp only [chunkLoop]
    cases current with
    | nil =>
      rw [show chunkStep (chunks, []) w = (chunks, [w]) from rfl, ih]
      simp
    | cons c cs =>
      simp only [chunkStep]
      split_ifs with hcond
      · rw [ih]
        simp [chunk_from_words, List.append_assoc]
      · rw [ih]
        simp [List.append_assoc]

lemma chunkLoop_chunks : ∀ (ws : List Word) (chunks : List LyricChunk) (current : List Word),
    (∀ c ∈ chunks, ∃ l, l ≠ [] ∧ c = chunk_from_words l) →
    ∀ c ∈ chunkLoop ws (chunks, current), ∃ l, l ≠ [] ∧ c = chunk_from_words l := by
  intro ws
  induction ws with
  | nil =>
    intro chunks current hch c hc
    simp only [chunkLoop] at hc
    by_cases hcur : current.isEmpty = true
    · rw [if_pos hcur] at hc
      exact hch c hc
    · rw [if_neg hcur] at hc
      rcases List.mem_append.mp hc with hmem | hmem
      · exact hch c hmem
      · rcases List.mem_singleton.mp hmem with rfl
        exact ⟨current, fun hn => hcur (by simp [hn]), rfl⟩
  | cons w ws ih =>
    intro chunks current hch c hc
    simp only [chunkLoop] at hc
    cases current with
    | nil => exact ih chunks [w] hch c hc
    | cons cc cs =>
      simp only [chunkStep] at hc
      split_ifs at hc with hcond
      · refine ih _ [w] ?_ c hc
        intro c' hc'
        rcases List.mem_append.mp hc' with hmem | hmem
        · exact hch c' hmem
        · rcases List.mem_singleton.mp hmem with rfl
          exact ⟨cc :: cs, List.cons_ne_nil cc cs, rfl⟩
      · exact ih chunks (cc :: cs ++ [w]) hch c hc

/-- C5: for every word list sorted by start, the chunk word lists returned
by `build_chunks` concatenate back to the input in order (a partition: no
word dropped, none duplicated); every chunk is non-empty, its text is the
space-join of the texts of its words, its start is the minimum word start
and its end the maximum word end. -/
theorem build_chunks_partition (words : List Word)
    (hs : List.Sorted startLE words) :
    ((build_chunks words).map LyricChunk.words).flatten = words
  ∧ ∀ c ∈ build_chunks words, c.words ≠ []
      ∧ c.text = String.intercalate " " (c.words.map Word.text)
      ∧ (∀ w ∈ c.words, c.start ≤ w.start ∧ w.«end» ≤ c.«end»)
      ∧ (∃ w ∈ c.words, w.start = c.start)
      ∧ (∃ w ∈ c.words, w.«end» = c.«end») := by
  by_cases hw : words.isEmpty = true
  · rw [List.isEmpty_iff.mp hw]
    constructor
    · rfl
    · intro c hc
      simp [build_chunks] at hc
  · have hbc : build_chunks words = chunkLoop (List.insertionSort startLE words) ([], []) := by
      rw [build_chunks, if_neg hw]
    have hsorteq : List.insertionSort startLE words = words := hs.insertionSort_eq
    rw [hbc, hsorteq]
    constructor
    · rw [chunkLoop_join]
      rfl
    · intro c hc
      obtain ⟨l, hl, rfl⟩ := chunkLoop_chunks words [] [] (by simp) c hc
      obtain ⟨hw1, hw2, hw3, hw4, hw5⟩ := chunk_from_words_spec l hl
      exact ⟨hl, hw2, hw3, hw4, hw5⟩

/-- Witness for C5 at a concrete sorted two-word input. -/
theorem build_chunks_partition_w :
    ((build_chunks [⟨"a","hey",0,1⟩, ⟨"b","now",2,3⟩]).map LyricChunk.words).flatten
      = [⟨"a","hey",0,1⟩, ⟨"b","now",2,3⟩] :=
  (build_chunks_partition [⟨"a","hey",0,1⟩, ⟨"b","now",2,3⟩]
    (by simp [List.sorted_cons, startLE])).1

/-! ## C9 -/

lemma fitLoop_stop (m : Measure) (cands : List (Option String)) :
    ∀ (fuel : ℕ) (size : ℤ) (last : Option ((ℕ × ℕ) × Option String × ℤ)),
      size < MIN_FONT_SIZE → fitLoop m cands fuel size last = last := by
  intro fuel size last h
  cases fuel with
  | zero => rfl
  | succ f =>
    simp only [fitLoop]
    rw [if_pos h]

lemma fitLoop_succ_none (m : Measure) (cands : List (Option String))
    (f : ℕ) (size : ℤ) (last : Option ((ℕ × ℕ) × Option String × ℤ))
    (hsz : ¬ size < MIN_FONT_SIZE) (htc : tryCandidates m cands size = none) :
    fitLoop m cands (f + 1) size last = fitLoop m cands f (size - 2) last := by
  simp only [fitLoop]
  rw [if_neg hsz, htc]

lemma fitLoop_succ_some (m : Measure) (cands : List (Option String))
    (f : ℕ) (size : ℤ) (last : Option ((ℕ × ℕ) × Option String × ℤ))
    (c : Option String) (dims : ℕ × ℕ)
    (hsz : ¬ size < MIN_FONT_SIZE) (htc : tryCandidates m cands size = some (c, dims)) :
    fitLoop m cands (f + 1) size last =
      if dims.1 ≤ safe_width ∧ dims.2 ≤ safe_height then some (dims, c, size)
      else fitLoop m cands f (size - 2) (some (dims, c, size)) := by
  simp only [fitLoop]
  rw [if_neg hsz, htc]

lemma tryCandidates_isSome (m : Measure) (s : ℤ) :
    ∀ (cands : List (Option String)), none ∈ cands → (m none s).isSome →
      (tryCandidates m cands s).isSome := by
  intro cands
  induction cands with
  | nil => intro hmem; simp at hmem
  | cons c rest ih =>
    intro hmem hm
    simp only [tryCandidates]
    cases hc : m c s with
    | some dims => simp
    | none =>
      rcases List.mem_cons.mp hmem with heq | hmem'
      · rw [← heq] at hc
        rw [hc] at hm
        simp at hm
      · exact ih hmem' hm

lemma tryCandidates_sound (m : Measure) (s : ℤ) :
    ∀ (cands : List (Option String)) (c : Option String) (d : ℕ × ℕ),
      tryCandidates m cands s = some (c, d) → m c s = some d := by
  intro cands
  induction cands with
  | nil => intro c d h; simp [tryCandidates] at h
  | cons c0 rest ih =>
    intro c d h
    simp only [tryCandidates] at h
    cases hc : m c0 s with
    | some dims =>
      rw [hc] at h
      injection h with h2
      injection h2 with ha hb
      subst ha
      subst hb
      exact hc
    | none =>
      rw [hc] at h
      exact ih c d h

lemma fitLoop_some_of_last (m : Measure) (cands : List (Option String)) :
    ∀ (fuel : ℕ) (size : ℤ) (last : Option ((ℕ × ℕ) × Option String × ℤ)),
      last.isSome → (fitLoop m cands fuel size last).isSome := by
  intro fuel
  induction fuel with
  | zero => intro size last h; exact h
  | succ f ih =>
    intro size last h
    by_cases hsz : size < MIN_FONT_SIZE
    · rw [fitLoop_stop m cands _ _ _ hsz]
      exact h
    · cases htc : tryCandidates m cands size with
      | none =>
        rw [fitLoop_succ_none m cands f size last hsz htc]
        exact ih _ _ h
      | some r =>
        rcases r with ⟨c, dims⟩
        rw [fitLoop_succ_some m cands f size last c dims hsz htc]
        split_ifs with hfit
        · rfl
        · exact ih _ _ rfl

lemma fitLoop_lowest (m : Measure) (cands : List (Option String))
    (hmem : none ∈ cands) (hm : ∀ s, (m none s).isSome)
    (hnofit : ∀ c s d, m c s = some d → ¬(d.1 ≤ safe_width ∧ d.2 ≤ safe_height)) :
    ∀ (fuel : ℕ) (size : ℤ) (last : Option ((ℕ × ℕ) × Option String × ℤ)),
      MIN_FONT_SIZE ≤ size → size - 34 ≤ (fuel : ℤ) →
      ∃ dims c, fitLoop m cands fuel size last
        = some (dims, c, MIN_FONT_SIZE + (size - MIN_FONT_SIZE) % 2) := by
  have h36 : MIN_FONT_SIZE = (36 : ℤ) := rfl
  intro fuel
  induction fuel with
  | zero =>
    intro size last hsz hfuel
    exfalso
    rw [h36] at hsz
    simp only [Nat.cast_zero] at hfuel
    omega
  | succ f ih =>
    intro size last hsz hfuel
    have hnotlt : ¬ size < MIN_FONT_SIZE := not_lt.mpr hsz
    obtain ⟨r, htc⟩ := Option.isSome_iff_exists.mp
      (tryCandidates_isSome m size cands hmem (hm size))
    rcases r with ⟨c0, d0⟩
    rw [fitLoop_succ_some m cands f size last c0 d0 hnotlt htc,
      if_neg (hnofit c0 size d0 (tryCandidates_sound m size cands c0 d0 htc))]
    by_cases h2 : MIN_FONT_SIZE ≤ size - 2
    · obtain ⟨dims, c, hres⟩ := ih (size - 2) (some (d0, c0, size)) h2
        (by push_cast at hfuel ⊢; omega)
      refine ⟨dims, c, ?_⟩
      rw [hres]
      have hmod : (size - 2 - MIN_FONT_SIZE) % 2 = (size - MIN_FONT_SIZE) % 2 := by
        omega
      rw [hmod]
    · have hlt : size - 2 < MIN_FONT_SIZE := by omega
      rw [fitLoop_stop m cands f (size - 2) _ hlt]
      refine ⟨d0, c0, ?_⟩
      have hsizeq : size = MIN_FONT_SIZE + (size - MIN_FONT_SIZE) % 2 := by
        rw [h36] at hsz h2 ⊢
        omega
      rw [← hsizeq]

lemma mem_none_fontCandidates (fp : Option String) (ff : String) (fw : ℤ) :
    none ∈ fontCandidates fp ff fw := by
  simp [fontCandidates]

/-- C9 counterexample: with an odd starting size (37) and a measurer whose
boxes never fit (always 1000×1000 against the 633×358 safe area), the
search returns its result at size 37, one point above the floor
`MIN_FONT_SIZE = 36` — the 2-point descent from an odd start never reaches
the floor, so "returns a result at the floor size" fails as stated. -/
theorem layout_fitter_floor_cex :
    build_safe_text_clip (fun _ _ => some (1000, 1000)) none "F" 37 600
        = some ((1000, 1000), "F-600", 37)
  ∧ ¬((1000 : ℕ) ≤ safe_width ∧ (1000 : ℕ) ≤ safe_height)
  ∧ (37 : ℤ) ≠ MIN_FONT_SIZE := by decide

/-- C9 (amended): provided the measurer accepts the final no-font
candidate (the renderer default, which moviepy never rejects), the layout
search always returns a result; and when no candidate fits at any size,
the result is at the lowest size reached by the 2-point descent — exactly
the floor `MIN_FONT_SIZE = 36` when the starting size is below the floor
or exceeds it by an even amount, and floor + 1 when it exceeds it by an
odd amount. -/
theorem layout_fitter_floor (m : Measure) (font_path : Option String)
    (font_family : String) (font_size font_weight : ℤ)
    (hm : ∀ s, (m none s).isSome) :
    (build_safe_text_clip m font_path font_family font_size font_weight).isSome
  ∧ ((∀ c s d, m c s = some d → ¬(d.1 ≤ safe_width ∧ d.2 ≤ safe_height)) →
      ∃ dims font,
        build_safe_text_clip m font_path font_family font_size font_weight
          = some (dims, font,
              if font_size < MIN_FONT_SIZE then MIN_FONT_SIZE
              else MIN_FONT_SIZE + (font_size - MIN_FONT_SIZE) % 2)) := by
  have hmem := mem_none_fontCandidates font_path font_family font_weight
  constructor
  · simp only [build_safe_text_clip]
    cases hfit : fitLoop m (fontCandidates font_path font_family font_weight)
        (font_size - 34).toNat font_size none with
    | some r =>
      rcases r with ⟨dims, c, size⟩
      simp
    | none =>
      obtain ⟨dims, hdims⟩ := Option.isSome_iff_exists.mp (hm MIN_FONT_SIZE)
      rw [hdims]
      simp
  · intro hnofit
    by_cases hfs : font_size < MIN_FONT_SIZE
    · have hstop : fitLoop m (fontCandidates font_path font_family font_weight)
          (font_size - 34).toNat font_size none = none :=
        fitLoop_stop _ _ _ _ _ hfs
      simp only [build_safe_text_clip, hstop]
      obtain ⟨dims, hdims⟩ := Option.isSome_iff_exists.mp (hm MIN_FONT_SIZE)
      rw [hdims, if_pos hfs]
      exact ⟨dims, _, rfl⟩
    · have hfuel : font_size - 34 ≤ (((font_size - 34).toNat : ℕ) : ℤ) :=
        Int.self_le_toNat _
      obtain ⟨dims, c, hres⟩ := fitLoop_lowest m
        (fontCandidates font_path font_family font_weight) hmem hm hnofit
        (font_size - 34).toNat font_size none (not_lt.mp hfs) hfuel
      simp only [build_safe_text_clip, hres]
      rw [if_neg hfs]
      exact ⟨dims, orFallback c, rfl⟩

/-- Witness for C9: an even starting size (70) with a never-fitting
measurer resolves exactly at the floor size 36. -/
theorem layout_fitter_floor_w :
    (build_safe_text_clip (fun _ _ => some (1000, 1000)) none "F" 70 600).isSome
  ∧ ∃ dims font, build_safe_text_clip (fun _ _ => some (1000, 1000)) none "F" 70 600
      = some (dims, font, 36) := by
  have h := layout_fitter_floor (fun _ _ => some (1000, 1000)) none "F" 70 600
    (fun _ => rfl)
  refine ⟨h.1, ?_⟩
  obtain ⟨dims, font, heq⟩ := h.2 (by
    intro c s d hd
    injection hd with h2
    subst h2
    decide)
  refine ⟨dims, font, ?_⟩
  rw [heq]
  congr 1
